import Mathlib

/-!
Verification development for the chess-AI core in `src/Assignment3/chess.py`:
the `State` wrapper over the external `python-chess` rules engine, the static
evaluation function `State.evaluate`, and the fixed-depth alpha-beta search
`minimax`.

The external rules engine (`python-chess`) is not part of the repository, so a
position is embedded as the tuple of query results that the source code reads
from `self.board`: the terminal-status flags, the side to move, the piece map,
the per-side legal-move counts used by the mobility term, the king squares and
attacker counts used by the king-safety term, the canonical serialization, and
the move history that the engine's board object carries.  Successor positions
(and the generating move that `board.peek()` recovers on each child) are
embedded as an inductive game tree.

Python floats are modelled by `ℚ` for the finite scores and by
`WithBot (WithTop ℚ)` once the sentinels `float('-inf')` / `float('inf')` of
`minimax` are included; the search performs no arithmetic on scores (only
comparisons, `max` and `min`), so this embedding is order-faithful.
-/

namespace Assignment3

/-- Moves are opaque tokens produced by the rules engine (UCI strings). -/
abbrev Move := String

/-- Search scores: the finite heuristic values of `evaluate` together with the
sentinels `float('-inf')` and `float('inf')` used by `minimax`. -/
abbrev Score := WithBot (WithTop ℚ)

/-- Embeds a finite evaluation into the score order. -/
def toScore (q : ℚ) : Score := ((q : WithTop ℚ) : Score)

/-- A piece as the source reads it from `board.piece_map()`: a piece type
(`chess.PAWN = 1` … `chess.KING = 6`) and a color (`true` = White). -/
structure Piece where
  pieceType : Nat
  color : Bool
deriving DecidableEq

/-- The results of the `python-chess` board queries that `chess.py` performs.
The engine itself is external to the repository, so each query is a field:
`turn` (`true` = White), the five status queries, the piece map, the legal-move
count with the turn forced to a given side (the source's mobility term copies
the board and overwrites `turn`), the king square of each side, the number of
attackers of a given color on a given square, the configuration serialization
and the move history.

Modelled from the spec: the spec's rules-engine interface (§6) reports these
per position; `config` stands for the board configuration (piece placement,
side to move, castling and en-passant rights) and, per spec §4.1 and the
glossary, the canonical serialization is derived purely from it; `history` is
the move stack that the engine's board object accumulates, which is not part of
the configuration.  Nothing in the spec or the source makes the claimable-draw
query a function of the configuration alone (for real chess it is not: the
threefold-repetition and fifty-move conditions depend on the history and the
halfmove clock), so `can_claim_draw` is an independent field. -/
structure Board where
  turn : Bool
  is_checkmate : Bool
  is_stalemate : Bool
  is_insufficient_material : Bool
  can_claim_draw : Bool
  is_game_over : Bool
  piece_map : List (Nat × Piece)
  legalMoveCountFor : Bool → Nat
  king : Bool → Option Nat
  attackersCount : Bool → Nat → Nat
  config : String
  history : List Move

/-- Modelled from the spec: the engine's canonical serialization (`board.fen()`
in the source, which is external) is derived purely from the board
configuration (spec §4.1: "derived purely from board configuration (not from
how the position was reached)"; glossary: "a configuration-only serialization").
-/
def Board.fen (b : Board) : String := b.config

/-- `board.piece_at(sq)`, consistent with the piece map the same engine
reports. -/
def Board.piece_at (b : Board) (sq : Nat) : Option Piece :=
  (b.piece_map.find? (fun p => p.1 == sq)).map (fun p => p.2)

/-- A `State` together with the game tree below it: the board, and for every
legal move the successor state, paired with the move that produced it (the
source recovers that move on a child as `child.board.peek()`, since `moveGen`
builds each child by pushing exactly one move onto a copy of the board). -/
inductive GState where
  | node : Board → List (Move × GState) → GState

/-- The wrapped board of a state. -/
def GState.board : GState → Board
  | .node b _ => b

/-- The successor list of a state, each successor paired with its generating
move. -/
def GState.children : GState → List (Move × GState)
  | .node _ c => c

/-- `State.isTerminal`: delegates to the engine's `board.is_game_over()`. -/
def isTerminal (s : GState) : Bool := s.board.is_game_over

/-- `State.moveGen`: one successor state per legal move, in the engine's
enumeration order; each successor carries (via the engine's `board.peek()`) the
move that produced it, embedded here as the first component of the pair. -/
def moveGen (s : GState) : List (Move × GState) := s.children

/-- `State.__eq__`: equality compares the canonical serializations
`self.board.fen() == other.board.fen()`. -/
def stateEq (s₁ s₂ : GState) : Bool := s₁.board.fen == s₂.board.fen

/-- Modelled from the spec: Python's built-in `hash` is external; the source's
`State.__hash__` is `hash(self.board.fen())`, a fixed function applied to the
canonical serialization, embedded here with a concrete string hash in its
place. -/
def stateHash (s : GState) : Nat :=
  s.board.fen.data.foldl (fun a c => a * 31 + c.toNat) 7

/-- The per-piece-type material values of the `piece_values` dictionary
(`chess.PAWN = 1`, `KNIGHT = 2`, `BISHOP = 3`, `ROOK = 4`, `QUEEN = 5`,
`KING = 6`); `dict.get(..., 0)` defaults to `0`. -/
def pieceValue : Nat → ℚ
  | 1 => 1
  | 2 => 4
  | 3 => 4
  | 4 => 6
  | 5 => 10
  | 6 => 200
  | _ => 0

/-- The four central squares `[chess.D4, chess.E4, chess.D5, chess.E5]`
(square index = rank * 8 + file). -/
def centerSquares : List Nat := [27, 28, 35, 36]

/-- `State.evaluate`: checkmate returns `-10000` (White to move) or `10000`
(Black to move); stalemate, insufficient material or a claimable draw returns
`0`; otherwise the heuristic accumulates material, a `0.2` center bonus,
`0.05` times the mobility difference, and `0.5` per attacker on each king. -/
def evaluate (b : Board) : ℚ :=
  if b.is_checkmate then
    if b.turn then -10000 else 10000
  else if b.is_stalemate || b.is_insufficient_material || b.can_claim_draw then
    0
  else
    let material : ℚ := b.piece_map.foldl
      (fun acc p =>
        if p.2.color then acc + pieceValue p.2.pieceType
        else acc - pieceValue p.2.pieceType) 0
    let center : ℚ := centerSquares.foldl
      (fun acc sq =>
        match b.piece_at sq with
        | some p => if p.color then acc + 0.2 else acc - 0.2
        | none => acc) material
    let mobility : ℚ := center +
      0.05 * ((b.legalMoveCountFor true : ℚ) - (b.legalMoveCountFor false : ℚ))
    let afterWhiteKing : ℚ :=
      match b.king true with
      | some sq => mobility - 0.5 * (b.attackersCount false sq : ℚ)
      | none => mobility
    let afterBlackKing : ℚ :=
      match b.king false with
      | some sq => afterWhiteKing + 0.5 * (b.attackersCount true sq : ℚ)
      | none => afterWhiteKing
    afterBlackKing

theorem sizeOf_snd_lt_of_mem {m : Move} {c : GState} :
    ∀ {L : List (Move × GState)}, (m, c) ∈ L → sizeOf c < sizeOf L := by
  intro L h
  induction L with
  | nil => cases h
  | cons hd tl ih =>
      rcases List.mem_cons.mp h with h | h
      · cases hd
        cases h
        simp
        omega
      · have := ih h
        cases hd
        simp
        omega

theorem sizeOf_moveGen_lt (s : GState) : sizeOf (moveGen s) < sizeOf s := by
  cases s with
  | node b c => simp [moveGen, GState.children]

mutual

/-- The `minimax` function of the source, translated clause for clause.
Base case: terminal or depth reached evaluates the position and returns no
move.  A MAX node starts from `maxEval = float('-inf')`, `best_move = None`,
iterates the successors in order, takes each child's returned score, records
the generating move whenever the score strictly exceeds the running best,
updates `alpha` to `max(alpha, eval_score)` (the child's score, not the
running best) and breaks as soon as `alpha ≥ beta`.  A MIN node is symmetric
with `minEval = float('inf')` and `beta = min(beta, eval_score)`. -/
def minimax (s : GState) (depth : Nat) (alpha beta : Score) (maximizingPlayer : Bool)
    (maxDepth : Nat) : Score × Option Move :=
  if isTerminal s = true ∨ depth = maxDepth then
    (toScore (evaluate s.board), none)
  else if maximizingPlayer then
    maxGo (moveGen s) (depth + 1) alpha beta maxDepth ⊥ none
  else
    minGo (moveGen s) (depth + 1) alpha beta maxDepth ⊤ none
termination_by sizeOf s
decreasing_by
  · exact sizeOf_moveGen_lt s
  · exact sizeOf_moveGen_lt s

/-- The MAX-node loop of `minimax`, one recursive call per list element;
`best` and `bm` are the running `maxEval` / `best_move`. -/
def maxGo (L : List (Move × GState)) (d : Nat) (alpha beta : Score) (maxD : Nat)
    (best : Score) (bm : Option Move) : Score × Option Move :=
  match L with
  | [] => (best, bm)
  | (m, c) :: rest =>
    let e := (minimax c d alpha beta false maxD).1
    let best' := if e > best then e else best
    let bm' := if e > best then some m else bm
    let alpha' := max alpha e
    if alpha' ≥ beta then (best', bm')
    else maxGo rest d alpha' beta maxD best' bm'
termination_by sizeOf L
decreasing_by all_goals (simp <;> omega)

/-- The MIN-node loop of `minimax`. -/
def minGo (L : List (Move × GState)) (d : Nat) (alpha beta : Score) (maxD : Nat)
    (best : Score) (bm : Option Move) : Score × Option Move :=
  match L with
  | [] => (best, bm)
  | (m, c) :: rest =>
    let e := (minimax c d alpha beta true maxD).1
    let best' := if e < best then e else best
    let bm' := if e < best then some m else bm
    let beta' := min beta e
    if alpha ≥ beta' then (best', bm')
    else minGo rest d alpha beta' maxD best' bm'
termination_by sizeOf L
decreasing_by all_goals (simp <;> omega)

end

mutual

/-- The unpruned comparator that the spec's testable property describes: the
same recursion as `minimax` with `alpha` and `beta` held fixed at negative and
positive infinity and the early-break condition removed. -/
def fullMinimax (s : GState) (depth : Nat) (maximizingPlayer : Bool)
    (maxDepth : Nat) : Score × Option Move :=
  if isTerminal s = true ∨ depth = maxDepth then
    (toScore (evaluate s.board), none)
  else if maximizingPlayer then
    fullMaxGo (moveGen s) (depth + 1) maxDepth ⊥ none
  else
    fullMinGo (moveGen s) (depth + 1) maxDepth ⊤ none
termination_by sizeOf s
decreasing_by
  · exact sizeOf_moveGen_lt s
  · exact sizeOf_moveGen_lt s

/-- The MAX-node loop of `fullMinimax` (no break). -/
def fullMaxGo (L : List (Move × GState)) (d : Nat) (maxD : Nat) (best : Score)
    (bm : Option Move) : Score × Option Move :=
  match L with
  | [] => (best, bm)
  | (m, c) :: rest =>
    let e := (fullMinimax c d false maxD).1
    fullMaxGo rest d maxD (if e > best then e else best)
      (if e > best then some m else bm)
termination_by sizeOf L
decreasing_by all_goals (simp <;> omega)

/-- The MIN-node loop of `fullMinimax` (no break). -/
def fullMinGo (L : List (Move × GState)) (d : Nat) (maxD : Nat) (best : Score)
    (bm : Option Move) : Score × Option Move :=
  match L with
  | [] => (best, bm)
  | (m, c) :: rest =>
    let e := (fullMinimax c d true maxD).1
    fullMinGo rest d maxD (if e < best then e else best)
      (if e < best then some m else bm)
termination_by sizeOf L
decreasing_by all_goals (simp <;> omega)

end

/-- The maximum of the full (unpruned) child values of a successor list,
starting from the MAX-node initialization `float('-inf')`. -/
def fullMaxScore (L : List (Move × GState)) (d : Nat) (maxD : Nat) : Score :=
  L.foldr (fun p acc => max (fullMinimax p.2 d false maxD).1 acc) ⊥

/-- The minimum of the full (unpruned) child values of a successor list,
starting from the MIN-node initialization `float('inf')`. -/
def fullMinScore (L : List (Move × GState)) (d : Nat) (maxD : Nat) : Score :=
  L.foldr (fun p acc => min (fullMinimax p.2 d true maxD).1 acc) ⊤

theorem ite_gt_eq_max (a b : Score) : (if b > a then b else a) = max a b := by
  rcases le_or_lt b a with h | h
  · rw [if_neg (not_lt_of_le h), max_eq_left h]
  · rw [if_pos h, max_eq_right h.le]

theorem ite_lt_eq_min (a b : Score) : (if b < a then b else a) = min a b := by
  rcases le_or_lt a b with h | h
  · rw [if_neg (not_lt_of_le h), min_eq_left h]
  · rw [if_pos h, min_eq_right h.le]

theorem toScore_lt_top (q : ℚ) : toScore q < ⊤ := by
  simp [toScore]
  exact WithBot.coe_lt_coe.mpr (WithTop.coe_lt_top q)

theorem bot_lt_toScore (q : ℚ) : (⊥ : Score) < toScore q :=
  WithBot.bot_lt_coe _

theorem toScore_lt_toScore {a b : ℚ} : toScore a < toScore b ↔ a < b := by
  simp [toScore]

theorem score_bot_lt_top : (⊥ : Score) < ⊤ := bot_lt_top

theorem le_maxGo_fst : ∀ (L : List (Move × GState)) (d : Nat) (alpha beta : Score)
    (maxD : Nat) (best : Score) (bm : Option Move),
    best ≤ (maxGo L d alpha beta maxD best bm).1 := by
  intro L
  induction L with
  | nil =>
      intro d alpha beta maxD best bm
      rw [maxGo]
  | cons hd tl ih =>
      obtain ⟨m, c⟩ := hd
      intro d alpha beta maxD best bm
      rw [maxGo]
      rw [ite_gt_eq_max]
      by_cases hb : max alpha (minimax c d alpha beta false maxD).1 ≥ beta
      · rw [if_pos hb]
        exact le_max_left _ _
      · rw [if_neg hb]
        exact le_trans (le_max_left _ _) (ih _ _ _ _ _ _)

theorem minGo_fst_le : ∀ (L : List (Move × GState)) (d : Nat) (alpha beta : Score)
    (maxD : Nat) (best : Score) (bm : Option Move),
    (minGo L d alpha beta maxD best bm).1 ≤ best := by
  intro L
  induction L with
  | nil =>
      intro d alpha beta maxD best bm
      rw [minGo]
  | cons hd tl ih =>
      obtain ⟨m, c⟩ := hd
      intro d alpha beta maxD best bm
      rw [minGo]
      rw [ite_lt_eq_min]
      by_cases hb : alpha ≥ min beta (minimax c d alpha beta true maxD).1
      · rw [if_pos hb]
        exact min_le_left _ _
      · rw [if_neg hb]
        exact le_trans (ih _ _ _ _ _ _) (min_le_left _ _)

theorem fullMaxGo_fst : ∀ (L : List (Move × GState)) (d maxD : Nat) (best : Score)
    (bm : Option Move),
    (fullMaxGo L d maxD best bm).1 = max best (fullMaxScore L d maxD) := by
  intro L
  induction L with
  | nil =>
      intro d maxD best bm
      rw [fullMaxGo]
      simp [fullMaxScore]
  | cons hd tl ih =>
      obtain ⟨m, c⟩ := hd
      intro d maxD best bm
      rw [fullMaxGo, ite_gt_eq_max, ih]
      show max (max best _) (fullMaxScore tl d maxD) = max best (fullMaxScore _ d maxD)
      rw [max_assoc]
      rfl

theorem fullMaxScore_nil (d maxD : Nat) : fullMaxScore [] d maxD = ⊥ := rfl

theorem fullMaxScore_cons (m : Move) (c : GState) (tl : List (Move × GState))
    (d maxD : Nat) :
    fullMaxScore ((m, c) :: tl) d maxD =
      max (fullMinimax c d false maxD).1 (fullMaxScore tl d maxD) := rfl

theorem fullMinScore_nil (d maxD : Nat) : fullMinScore [] d maxD = ⊤ := rfl

theorem fullMinScore_cons (m : Move) (c : GState) (tl : List (Move × GState))
    (d maxD : Nat) :
    fullMinScore ((m, c) :: tl) d maxD =
      min (fullMinimax c d true maxD).1 (fullMinScore tl d maxD) := rfl

theorem fullMinGo_fst : ∀ (L : List (Move × GState)) (d maxD : Nat) (best : Score)
    (bm : Option Move),
    (fullMinGo L d maxD best bm).1 = min best (fullMinScore L d maxD) := by
  intro L
  induction L with
  | nil =>
      intro d maxD best bm
      rw [fullMinGo]
      simp [fullMinScore]
  | cons hd tl ih =>
      obtain ⟨m, c⟩ := hd
      intro d maxD best bm
      rw [fullMinGo, ite_lt_eq_min, ih]
      show min (min best _) (fullMinScore tl d maxD) = min best (fullMinScore _ d maxD)
      rw [min_assoc]
      rfl

/-- Fail-soft alpha-beta soundness, MAX-loop step: given the trichotomy for
every child of the list, the pruned loop result relates to the unpruned loop
value `max best (fullMaxScore L)` in the same three-way fashion, provided the
window is open (`alpha < beta`) and the running best never exceeds `alpha`
(which the loop maintains, since `alpha` absorbs every child score). -/
theorem alphabeta_maxGo (d maxD : Nat) (beta : Score) :
    ∀ (L : List (Move × GState)),
    (∀ m c, (m, c) ∈ L → ∀ (alpha : Score), alpha < beta →
      ((fullMinimax c d false maxD).1 ≤ alpha →
        (minimax c d alpha beta false maxD).1 ≤ alpha) ∧
      (beta ≤ (fullMinimax c d false maxD).1 →
        beta ≤ (minimax c d alpha beta false maxD).1) ∧
      (alpha < (fullMinimax c d false maxD).1 →
        (fullMinimax c d false maxD).1 < beta →
        (minimax c d alpha beta false maxD).1 = (fullMinimax c d false maxD).1)) →
    ∀ (alpha best : Score) (bm : Option Move), alpha < beta → best ≤ alpha →
      ((max best (fullMaxScore L d maxD) ≤ alpha →
          (maxGo L d alpha beta maxD best bm).1 ≤ alpha) ∧
       (beta ≤ max best (fullMaxScore L d maxD) →
          beta ≤ (maxGo L d alpha beta maxD best bm).1) ∧
       (alpha < max best (fullMaxScore L d maxD) →
          max best (fullMaxScore L d maxD) < beta →
          (maxGo L d alpha beta maxD best bm).1 = max best (fullMaxScore L d maxD))) := by
  intro L
  induction L with
  | nil =>
      intro _ alpha best bm hab hba
      rw [maxGo, fullMaxScore_nil, max_eq_left bot_le]
      exact ⟨fun h => h,
        fun h => absurd (lt_of_le_of_lt (le_trans h hba) hab) (lt_irrefl _),
        fun h _ => absurd (lt_of_lt_of_le h hba) (lt_irrefl _)⟩
  | cons hd tl ih =>
      obtain ⟨m, c⟩ := hd
      intro hIH alpha best bm hab hba
      have hT := hIH m c (List.mem_cons_self _ _) alpha hab
      have hIHtl := fun m' c' h => hIH m' c' (List.mem_cons_of_mem _ h)
      rw [maxGo, fullMaxScore_cons]
      rw [ite_gt_eq_max]
      set v₁ := (fullMinimax c d false maxD).1 with hv₁
      set Wtl := fullMaxScore tl d maxD with hWtl
      set e := (minimax c d alpha beta false maxD).1 with he
      by_cases h1 : v₁ ≤ alpha
      · -- child value below the window: the child call returns at most alpha
        have hea : e ≤ alpha := hT.1 h1
        have hmax : max alpha e = alpha := max_eq_left hea
        rw [hmax, if_neg (not_le.mpr hab)]
        have hba' : max best e ≤ alpha := max_le hba hea
        have htl := ih hIHtl alpha (max best e) (if e > best then some m else bm) hab hba'
        refine ⟨?_, ?_, ?_⟩
        · intro hVa
          have hWa : Wtl ≤ alpha :=
            le_trans (le_trans (le_max_right v₁ Wtl) (le_max_right best _)) hVa
          exact htl.1 (max_le hba' hWa)
        · intro hbV
          rcases le_max_iff.mp hbV with h | h
          · exact absurd (lt_of_le_of_lt (le_trans h hba) hab) (lt_irrefl _)
          · rcases le_max_iff.mp h with h' | h'
            · exact absurd (lt_of_le_of_lt (le_trans h' h1) hab) (lt_irrefl _)
            · exact htl.2.1 (le_trans h' (le_max_right _ _))
        · intro haV hVb
          have haW : alpha < Wtl := by
            by_contra hc
            push_neg at hc
            exact absurd (lt_of_lt_of_le haV (max_le hba (max_le h1 hc))) (lt_irrefl _)
          have hVW : max best (max v₁ Wtl) = Wtl := by
            rw [max_eq_right (le_trans h1 haW.le)]
            exact max_eq_right (le_trans hba haW.le)
          have hV'W : max (max best e) Wtl = Wtl := max_eq_right (le_trans hba' haW.le)
          rw [hVW]
          rw [hVW] at hVb
          have hres := htl.2.2 (by rw [hV'W]; exact haW) (by rw [hV'W]; exact hVb)
          rw [hV'W] at hres
          exact hres
      · push_neg at h1
        by_cases h2 : v₁ < beta
        · -- child value inside the window: the child call returns it exactly
          have hev : e = v₁ := hT.2.2 h1 h2
          have hmax : max alpha e = v₁ := by
            rw [hev]
            exact max_eq_right h1.le
          have hbest' : max best e = v₁ := by
            rw [hev]
            exact max_eq_right (le_trans hba h1.le)
          rw [hmax, if_neg (not_le.mpr h2), hbest']
          have htl := ih hIHtl v₁ v₁ (if e > best then some m else bm) h2 le_rfl
          refine ⟨?_, ?_, ?_⟩
          · intro hVa
            have hv1a : v₁ ≤ alpha :=
              le_trans (le_trans (le_max_left v₁ Wtl) (le_max_right best _)) hVa
            exact absurd (lt_of_lt_of_le h1 hv1a) (lt_irrefl _)
          · intro hbV
            rcases le_max_iff.mp hbV with h | h
            · exact absurd (lt_of_le_of_lt (le_trans h hba) hab) (lt_irrefl _)
            · exact htl.2.1 h
          · intro haV hVb
            have hVeq : max best (max v₁ Wtl) = max v₁ Wtl :=
              max_eq_right (le_trans hba (le_trans h1.le (le_max_left _ _)))
            rw [hVeq]
            rw [hVeq] at hVb
            by_cases hWv : Wtl ≤ v₁
            · have hV' : max v₁ Wtl = v₁ := max_eq_left hWv
              rw [hV']
              exact le_antisymm (htl.1 (max_le le_rfl hWv))
                (le_maxGo_fst tl d v₁ beta maxD v₁ _)
            · push_neg at hWv
              have hV' : max v₁ Wtl = Wtl := max_eq_right hWv.le
              rw [hV']
              rw [hV'] at hVb
              have hres := htl.2.2 (by rw [hV']; exact hWv) (by rw [hV']; exact hVb)
              rw [hV'] at hres
              exact hres
        · -- child value at or above beta: the child call returns at least beta
          push_neg at h2
          have hbe : beta ≤ e := hT.2.1 h2
          rw [if_pos (le_trans hbe (le_max_right alpha e))]
          refine ⟨?_, ?_, ?_⟩
          · intro hVa
            have : beta ≤ alpha :=
              le_trans h2 (le_trans (le_trans (le_max_left v₁ Wtl) (le_max_right best _)) hVa)
            exact absurd (lt_of_lt_of_le hab this) (lt_irrefl _)
          · intro _
            exact le_trans hbe (le_max_right best e)
          · intro _ hVb
            have : beta < beta :=
              lt_of_le_of_lt
                (le_trans h2 (le_trans (le_max_left v₁ Wtl) (le_max_right best _))) hVb
            exact absurd this (lt_irrefl _)

/-- Fail-soft alpha-beta soundness, MIN-loop step: dual of `alphabeta_maxGo`. -/
theorem alphabeta_minGo (d maxD : Nat) (alpha : Score) :
    ∀ (L : List (Move × GState)),
    (∀ m c, (m, c) ∈ L → ∀ (beta : Score), alpha < beta →
      ((fullMinimax c d true maxD).1 ≤ alpha →
        (minimax c d alpha beta true maxD).1 ≤ alpha) ∧
      (beta ≤ (fullMinimax c d true maxD).1 →
        beta ≤ (minimax c d alpha beta true maxD).1) ∧
      (alpha < (fullMinimax c d true maxD).1 →
        (fullMinimax c d true maxD).1 < beta →
        (minimax c d alpha beta true maxD).1 = (fullMinimax c d true maxD).1)) →
    ∀ (beta best : Score) (bm : Option Move), alpha < beta → beta ≤ best →
      ((beta ≤ min best (fullMinScore L d maxD) →
          beta ≤ (minGo L d alpha beta maxD best bm).1) ∧
       (min best (fullMinScore L d maxD) ≤ alpha →
          (minGo L d alpha beta maxD best bm).1 ≤ alpha) ∧
       (alpha < min best (fullMinScore L d maxD) →
          min best (fullMinScore L d maxD) < beta →
          (minGo L d alpha beta maxD best bm).1 = min best (fullMinScore L d maxD))) := by
  intro L
  induction L with
  | nil =>
      intro _ beta best bm hab hbb
      rw [minGo, fullMinScore_nil, min_eq_left le_top]
      exact ⟨fun h => h,
        fun h => absurd (lt_of_lt_of_le hab (le_trans hbb h)) (lt_irrefl _),
        fun _ h => absurd (lt_of_le_of_lt hbb h) (lt_irrefl _)⟩
  | cons hd tl ih =>
      obtain ⟨m, c⟩ := hd
      intro hIH beta best bm hab hbb
      have hT := hIH m c (List.mem_cons_self _ _) beta hab
      have hIHtl := fun m' c' h => hIH m' c' (List.mem_cons_of_mem _ h)
      rw [minGo, fullMinScore_cons]
      rw [ite_lt_eq_min]
      set v₁ := (fullMinimax c d true maxD).1 with hv₁
      set Wtl := fullMinScore tl d maxD with hWtl
      set e := (minimax c d alpha beta true maxD).1 with he
      by_cases h1 : beta ≤ v₁
      · -- child value above the window: the child call returns at least beta
        have hbe : beta ≤ e := hT.2.1 h1
        have hmin : min beta e = beta := min_eq_left hbe
        rw [hmin, if_neg (not_le.mpr hab)]
        have hbb' : beta ≤ min best e := le_min hbb hbe
        have htl := ih hIHtl beta (min best e) (if e < best then some m else bm) hab hbb'
        refine ⟨?_, ?_, ?_⟩
        · intro hbV
          have hbW : beta ≤ Wtl :=
            le_trans hbV (le_trans (min_le_right best _) (min_le_right v₁ Wtl))
          exact htl.1 (le_min hbb' hbW)
        · intro hVa
          rcases min_le_iff.mp hVa with h | h
          · exact absurd (lt_of_lt_of_le hab (le_trans hbb h)) (lt_irrefl _)
          · rcases min_le_iff.mp h with h' | h'
            · exact absurd (lt_of_lt_of_le hab (le_trans h1 h')) (lt_irrefl _)
            · exact htl.2.1 (le_trans (min_le_right _ _) h')
        · intro haV hVb
          have hWb : Wtl < beta := by
            by_contra hc
            push_neg at hc
            exact absurd (lt_of_le_of_lt (le_min hbb (le_min h1 hc)) hVb) (lt_irrefl _)
          have hVW : min best (min v₁ Wtl) = Wtl := by
            rw [min_eq_right (le_trans hWb.le h1)]
            exact min_eq_right (le_trans hWb.le hbb)
          have hV'W : min (min best e) Wtl = Wtl := min_eq_right (le_trans hWb.le hbb')
          rw [hVW]
          rw [hVW] at haV
          have hres := htl.2.2 (by rw [hV'W]; exact haV) (by rw [hV'W]; exact hWb)
          rw [hV'W] at hres
          exact hres
      · push_neg at h1
        by_cases h2 : alpha < v₁
        · -- child value inside the window: the child call returns it exactly
          have hev : e = v₁ := hT.2.2 h2 h1
          have hmin : min beta e = v₁ := by
            rw [hev]
            exact min_eq_right h1.le
          have hbest' : min best e = v₁ := by
            rw [hev]
            exact min_eq_right (le_trans h1.le hbb)
          rw [hmin, if_neg (not_le.mpr h2), hbest']
          have htl := ih hIHtl v₁ v₁ (if e < best then some m else bm) h2 le_rfl
          refine ⟨?_, ?_, ?_⟩
          · intro hbV
            have hbv1 : beta ≤ v₁ :=
              le_trans hbV (le_trans (min_le_right best _) (min_le_left v₁ Wtl))
            exact absurd (lt_of_le_of_lt hbv1 h1) (lt_irrefl _)
          · intro hVa
            rcases min_le_iff.mp hVa with h | h
            · exact absurd (lt_of_lt_of_le hab (le_trans hbb h)) (lt_irrefl _)
            · exact htl.2.1 h
          · intro haV hVb
            have hVeq : min best (min v₁ Wtl) = min v₁ Wtl :=
              min_eq_right (le_trans (le_trans (min_le_left _ _) h1.le) hbb)
            rw [hVeq]
            rw [hVeq] at haV
            by_cases hWv : v₁ ≤ Wtl
            · have hV' : min v₁ Wtl = v₁ := min_eq_left hWv
              rw [hV']
              exact le_antisymm (minGo_fst_le tl d alpha v₁ maxD v₁ _)
                (htl.1 (le_min le_rfl hWv))
            · push_neg at hWv
              have hV' : min v₁ Wtl = Wtl := min_eq_right hWv.le
              rw [hV']
              rw [hV'] at haV
              have hres := htl.2.2 (by rw [hV']; exact haV) (by rw [hV']; exact hWv)
              rw [hV'] at hres
              exact hres
        · -- child value at or below alpha: the child call returns at most alpha
          push_neg at h2
          have hea : e ≤ alpha := hT.1 h2
          rw [if_pos (le_trans (min_le_right beta e) hea)]
          refine ⟨?_, ?_, ?_⟩
          · intro hbV
            have : beta ≤ alpha :=
              le_trans (le_trans hbV (le_trans (min_le_right best _) (min_le_left v₁ Wtl))) h2
            exact absurd (lt_of_lt_of_le hab this) (lt_irrefl _)
          · intro _
            exact le_trans (min_le_right best e) hea
          · intro haV _
            have : alpha < alpha :=
              lt_of_lt_of_le haV
                (le_trans (le_trans (min_le_right best _) (min_le_left v₁ Wtl)) h2)
            exact absurd this (lt_irrefl _)

/-- Fail-soft alpha-beta soundness for the source's `minimax` against the
unpruned `fullMinimax`, by strong induction on the tree: with an open window
the pruned score equals the full score whenever the latter lies strictly inside
the window, and otherwise fails in the same direction the full score leaves the
window. -/
theorem alphabeta_trichotomy : ∀ (n : Nat) (s : GState), sizeOf s ≤ n →
    ∀ (d maxD : Nat) (alpha beta : Score) (mx : Bool), alpha < beta →
      ((fullMinimax s d mx maxD).1 ≤ alpha →
        (minimax s d alpha beta mx maxD).1 ≤ alpha) ∧
      (beta ≤ (fullMinimax s d mx maxD).1 →
        beta ≤ (minimax s d alpha beta mx maxD).1) ∧
      (alpha < (fullMinimax s d mx maxD).1 →
        (fullMinimax s d mx maxD).1 < beta →
        (minimax s d alpha beta mx maxD).1 = (fullMinimax s d mx maxD).1) := by
  intro n
  induction n with
  | zero =>
      intro s hs
      cases s with
      | node b L =>
          simp at hs
  | succ n ihn =>
      intro s hs d maxD alpha beta mx hab
      by_cases hbase : isTerminal s = true ∨ d = maxD
      · rw [minimax, fullMinimax, if_pos hbase, if_pos hbase]
        exact ⟨fun h => h, fun h => h, fun _ _ => rfl⟩
      · have hsize : ∀ m c, (m, c) ∈ moveGen s → sizeOf c ≤ n := by
          intro m c hmem
          have h1 := sizeOf_snd_lt_of_mem hmem
          have h2 := sizeOf_moveGen_lt s
          omega
        cases mx with
        | false =>
            rw [minimax, fullMinimax, if_neg hbase, if_neg hbase,
              if_neg Bool.false_ne_true, if_neg Bool.false_ne_true, fullMinGo_fst]
            have H := alphabeta_minGo (d + 1) maxD alpha (moveGen s)
              (fun m c hmem beta' hab' =>
                ihn c (hsize m c hmem) (d + 1) maxD alpha beta' true hab')
              beta ⊤ none hab le_top
            exact ⟨H.2.1, H.1, H.2.2⟩
        | true =>
            rw [minimax, fullMinimax, if_neg hbase, if_neg hbase,
              if_pos rfl, if_pos rfl, fullMaxGo_fst]
            exact alphabeta_maxGo (d + 1) maxD beta (moveGen s)
              (fun m c hmem alpha' hab' =>
                ihn c (hsize m c hmem) (d + 1) maxD alpha' beta false hab')
              alpha ⊥ none hab bot_le

/-- C2: for every state, depth, side and maxDepth, the pruned search called
with the open window (negative infinity, positive infinity) and the unpruned
full minimax (alpha and beta held fixed, early break removed) return the same
score: pruning never changes the returned score. -/
theorem c2_pruning_preserves_score (s : GState) (d : Nat) (mx : Bool) (maxD : Nat) :
    (minimax s d ⊥ ⊤ mx maxD).1 = (fullMinimax s d mx maxD).1 := by
  have H := alphabeta_trichotomy (sizeOf s) s le_rfl d maxD ⊥ ⊤ mx score_bot_lt_top
  rcases eq_or_lt_of_le (bot_le : (⊥ : Score) ≤ (fullMinimax s d mx maxD).1) with hv | hv
  · rw [le_bot_iff.mp (H.1 (le_of_eq hv.symm)), hv]
  · rcases eq_or_lt_of_le (le_top : (fullMinimax s d mx maxD).1 ≤ ⊤) with hv2 | hv2
    · rw [top_le_iff.mp (H.2.1 (le_of_eq hv2.symm)), hv2]
    · exact H.2.2 hv hv2

/-- A quiet position: no terminal flag set, empty piece map, no kings, no
attackers, zero mobility for both sides. -/
def bQuiet : Board where
  turn := true
  is_checkmate := false
  is_stalemate := false
  is_insufficient_material := false
  can_claim_draw := false
  is_game_over := false
  piece_map := []
  legalMoveCountFor := fun _ => 0
  king := fun _ => none
  attackersCount := fun _ _ => 0
  config := "cfg0"
  history := []

/-- A checkmate position with White to move. -/
def bMateWhite : Board :=
  { bQuiet with is_checkmate := true, is_game_over := true, config := "cfgMW" }

/-- A checkmate position with Black to move. -/
def bMateBlack : Board :=
  { bQuiet with
    turn := false
    is_checkmate := true
    is_game_over := true
    config := "cfgMB" }

/-- A stalemate position. -/
def bStale : Board :=
  { bQuiet with is_stalemate := true, is_game_over := true, config := "cfgSt" }

/-- C1: on a terminal position the score is fixed by the terminal kind:
checkmate with White (the first player) to move scores exactly `-10000`,
checkmate with Black to move scores exactly `10000`, and a non-checkmate
terminal that is stalemate, insufficient material or a claimable draw scores
exactly `0`.  (The kinds are read in the source's order: checkmate is tested
first, so the drawish case is the one with the checkmate flag clear.) -/
theorem c1_terminal_evaluation (b : Board) (hterm : b.is_game_over = true) :
    (b.is_checkmate = true → b.turn = true → evaluate b = -10000) ∧
    (b.is_checkmate = true → b.turn = false → evaluate b = 10000) ∧
    (b.is_checkmate = false →
      (b.is_stalemate || b.is_insufficient_material || b.can_claim_draw) = true →
      evaluate b = 0) := by
  refine ⟨?_, ?_, ?_⟩ <;> intro h1 h2 <;> simp [evaluate, h1, h2]

/-- C1 witness: the checkmate-with-White-to-move instance. -/
theorem c1_witness :
    bMateWhite.is_game_over = true ∧ evaluate bMateWhite = -10000 :=
  ⟨rfl, (c1_terminal_evaluation bMateWhite rfl).1 rfl rfl⟩

/-- C9: whenever the position is terminal or the depth has reached `maxDepth`
(in particular at `depth = maxDepth = 0` for any state), `minimax` returns
exactly `(evaluate(state), none)`, for every `alpha`, `beta` and side. -/
theorem c9_base_case (s : GState) (d : Nat) (alpha beta : Score) (mx : Bool)
    (maxD : Nat) (h : isTerminal s = true ∨ d = maxD) :
    minimax s d alpha beta mx maxD = (toScore (evaluate s.board), none) := by
  rw [minimax, if_pos h]

/-- C9 witness: a non-terminal state searched with `depth = maxDepth = 0`. -/
theorem c9_witness :
    minimax (GState.node bQuiet []) 0 ⊥ ⊤ true 0 =
      (toScore (evaluate (GState.node bQuiet []).board), none) :=
  c9_base_case (GState.node bQuiet []) 0 ⊥ ⊤ true 0 (Or.inr rfl)

/-- A non-terminal position with a nonzero heuristic score (White has 20 legal
moves, Black none, so the mobility term alone gives `0.05 * 20 = 1`). -/
def cbNoDraw : Board :=
  { bQuiet with
    legalMoveCountFor := fun c => if c then 20 else 0
    config := "cfgMid" }

/-- The same configuration reached along a different move history on which the
engine reports a claimable draw (for real chess, e.g. a threefold repetition:
the claimable-draw query depends on the history, not only on the
configuration). -/
def cbDraw : Board :=
  { cbNoDraw with
    can_claim_draw := true
    history := ["g1f3", "g8f6", "f3g1", "f6g8", "g1f3", "g8f6", "f3g1", "f6g8"] }

/-- C6 counterexample: two positions with identical board configurations
(piece placement, side to move, castling and en-passant rights — the `config`
field) reached by different move histories on which `evaluate` returns
different scores, because the claimable-draw status the evaluator consults is
not determined by the configuration. -/
theorem c6_counterexample :
    cbNoDraw.config = cbDraw.config ∧ cbNoDraw.history ≠ cbDraw.history ∧
      evaluate cbNoDraw ≠ evaluate cbDraw := by
  refine ⟨rfl, by simp [cbNoDraw, cbDraw, bQuiet], ?_⟩
  have h1 : evaluate cbNoDraw = 1 := by
    norm_num [evaluate, cbNoDraw, bQuiet, Board.piece_at, centerSquares]
  have h2 : evaluate cbDraw = 0 := rfl
  rw [h1, h2]
  norm_num

/-- C6 amended: `evaluate` depends only on the position attributes the engine
reports and the evaluator reads — side to move, the checkmate / stalemate /
insufficient-material / claimable-draw statuses, the piece map, the per-side
legal-move counts, the king squares and the attacker counts.  It does not
depend on the search depth, the serialization, the game-over flag, or the move
history other than through the claimable-draw status (which the configuration
alone does not determine). -/
theorem c6_amended_score_reads_only_position_queries (b₁ b₂ : Board)
    (h1 : b₁.turn = b₂.turn)
    (h2 : b₁.is_checkmate = b₂.is_checkmate)
    (h3 : b₁.is_stalemate = b₂.is_stalemate)
    (h4 : b₁.is_insufficient_material = b₂.is_insufficient_material)
    (h5 : b₁.can_claim_draw = b₂.can_claim_draw)
    (h6 : b₁.piece_map = b₂.piece_map)
    (h7 : b₁.legalMoveCountFor = b₂.legalMoveCountFor)
    (h8 : b₁.king = b₂.king)
    (h9 : b₁.attackersCount = b₂.attackersCount) :
    evaluate b₁ = evaluate b₂ := by
  simp only [evaluate, Board.piece_at, h1, h2, h3, h4, h5, h6, h7, h8, h9]

/-- A board agreeing with `bQuiet` on every field `evaluate` reads but
differing in serialization, game-over flag and history. -/
def bQuietOther : Board :=
  { bQuiet with
    config := "cfgOther"
    is_game_over := true
    history := ["e2e4"] }

/-- C6 amended witness: two boards agreeing on all queried fields evaluate
equally. -/
theorem c6_witness : evaluate bQuiet = evaluate bQuietOther :=
  c6_amended_score_reads_only_position_queries bQuiet bQuietOther
    rfl rfl rfl rfl rfl rfl rfl rfl rfl

/-- C7: state equality holds exactly when the canonical serializations agree;
the hash is a function of the same serialization; and since the serialization
is derived from the board configuration alone, two states with the same
configuration — regardless of their move histories — are equal and hash
equal. -/
theorem c7_identity_by_serialization (s₁ s₂ : GState) :
    (stateEq s₁ s₂ = true ↔ s₁.board.fen = s₂.board.fen) ∧
    (s₁.board.fen = s₂.board.fen → stateHash s₁ = stateHash s₂) ∧
    (s₁.board.config = s₂.board.config →
      stateEq s₁ s₂ = true ∧ stateHash s₁ = stateHash s₂) := by
  refine ⟨?_, ?_, ?_⟩
  · simp [stateEq]
  · intro h
    simp [stateHash, h]
  · intro h
    have hf : s₁.board.fen = s₂.board.fen := h
    exact ⟨by simp [stateEq, hf], by simp [stateHash, hf]⟩

/-- A state carrying `bQuiet` with an empty history. -/
def sHistEmpty : GState := GState.node bQuiet []

/-- A state with the same board configuration as `sHistEmpty` but a different
move history. -/
def sHistLong : GState :=
  GState.node { bQuiet with history := ["b1c3", "b8c6", "c3b1", "c6b8"] } []

/-- C7 witness: same configuration, different histories: equal and hash
equal. -/
theorem c7_witness :
    sHistEmpty.board.config = sHistLong.board.config ∧
      stateEq sHistEmpty sHistLong = true ∧ stateHash sHistEmpty = stateHash sHistLong :=
  ⟨rfl, (c7_identity_by_serialization sHistEmpty sHistLong).2.2 rfl⟩

/-- Follows the spec's words for the depth-one scenario: the first successor
(in enumeration order) attaining the maximum `evaluate` score among the listed
successors, with ties broken first-strictly-greater-wins (a later successor
replaces the chosen one only when its score is strictly greater). -/
def specFirstMax : List (Move × GState) → Option (Move × ℚ)
  | [] => none
  | (m, c) :: rest =>
    match specFirstMax rest with
    | none => some (m, evaluate c.board)
    | some (m', e') =>
        if e' > evaluate c.board then some (m', e') else some (m, evaluate c.board)

theorem maxGo_depth_one :
    ∀ (L : List (Move × GState)) (alpha best : Score) (bm : Option Move),
    alpha < ⊤ →
    maxGo L 1 alpha ⊤ 1 best bm =
      match specFirstMax L with
      | none => (best, bm)
      | some (m, e) => if toScore e > best then (toScore e, some m) else (best, bm) := by
  intro L
  induction L with
  | nil =>
      intro alpha best bm _
      rw [maxGo, specFirstMax]
  | cons hd tl ih =>
      obtain ⟨m, c⟩ := hd
      intro alpha best bm halpha
      rw [maxGo, specFirstMax]
      have hch : (minimax c 1 alpha ⊤ false 1).1 = toScore (evaluate c.board) := by
        rw [minimax, if_pos (Or.inr rfl)]
      rw [hch]
      have hlt : max alpha (toScore (evaluate c.board)) < ⊤ :=
        max_lt halpha (toScore_lt_top _)
      rw [if_neg (not_le.mpr hlt)]
      rw [ih _ _ _ hlt]
      cases hsp : specFirstMax tl with
      | none =>
          dsimp only
          by_cases hb : toScore (evaluate c.board) > best
          · rw [if_pos hb, if_pos hb, if_pos hb]
          · rw [if_neg hb, if_neg hb, if_neg hb]
      | some p =>
          obtain ⟨m', e'⟩ := p
          dsimp only
          by_cases hcmp : e' > evaluate c.board
          · rw [if_pos hcmp]
            dsimp only
            by_cases hb : toScore (evaluate c.board) > best
            · rw [if_pos hb, if_pos hb]
              have h1 : toScore e' > toScore (evaluate c.board) :=
                toScore_lt_toScore.mpr hcmp
              rw [if_pos h1, if_pos (lt_trans hb h1)]
            · rw [if_neg hb, if_neg hb]
          · rw [if_neg hcmp]
            dsimp only
            push_neg at hcmp
            have hee : toScore e' ≤ toScore (evaluate c.board) := by
              simp only [toScore, WithBot.coe_le_coe, WithTop.coe_le_coe]
              exact hcmp
            by_cases hb : toScore (evaluate c.board) > best
            · rw [if_pos hb, if_pos hb, if_pos hb,
                if_neg (not_lt.mpr hee)]
            · rw [if_neg hb, if_neg hb, if_neg hb,
                if_neg (not_lt.mpr (le_trans hee (not_lt.mp hb)))]

/-- C8: for a non-terminal root searched with `maximizing = true`, `depth = 0`,
`maxDepth = 1` and the open window, `minimax` returns the first successor (in
enumeration order) attaining the maximum `evaluate` score, with ties broken
first-strictly-greater-wins, together with that maximum score. -/
theorem c8_depth_one_first_argmax (s : GState) (m : Move) (e : ℚ)
    (hterm : isTerminal s = false)
    (hspec : specFirstMax (moveGen s) = some (m, e)) :
    minimax s 0 ⊥ ⊤ true 1 = (toScore e, some m) := by
  rw [minimax, if_neg (by simp [hterm]), if_pos rfl]
  rw [maxGo_depth_one (moveGen s) ⊥ ⊥ none score_bot_lt_top, hspec]
  dsimp only
  rw [if_pos (bot_lt_toScore e)]

/-- A state with two quiet successors whose scores are 0 and 1: the second
successor scores strictly higher and must be returned. -/
def sTwoMoves : GState :=
  GState.node bQuiet
    [("a2a3", GState.node bQuiet []),
     ("d2d4", GState.node cbNoDraw [])]

mutual

/-- The rules-engine consistency guarantee the spec states for `successors`:
an empty successor list only at a terminal position ("Returns an empty
sequence iff `isTerminal()` is true"), checked recursively through the game
tree.  (Only the direction needed here is imposed: no non-terminal node runs
out of successors.) -/
def WFb : GState → Bool
  | .node b ch => (if ch.isEmpty then b.is_game_over else true) && WFbL ch
termination_by s => sizeOf s
decreasing_by all_goals simp

/-- `WFb` on every child of a successor list. -/
def WFbL : List (Move × GState) → Bool
  | [] => true
  | (_, c) :: rest => WFb c && WFbL rest
termination_by L => sizeOf L
decreasing_by all_goals (simp <;> omega)

end

theorem WFbL_mem : ∀ {L : List (Move × GState)}, WFbL L = true →
    ∀ {m : Move} {c : GState}, (m, c) ∈ L → WFb c = true := by
  intro L
  induction L with
  | nil =>
      intro _ m c h
      cases h
  | cons hd tl ih =>
      obtain ⟨m₀, c₀⟩ := hd
      intro hw m c hmem
      rw [WFbL, Bool.and_eq_true] at hw
      rcases List.mem_cons.mp hmem with h | h
      · cases h
        exact hw.1
      · exact ih hw.2 h

theorem WFb_children {s : GState} (hwf : WFb s = true) :
    ∀ {m : Move} {c : GState}, (m, c) ∈ moveGen s → WFb c = true := by
  cases s with
  | node b ch =>
      rw [WFb, Bool.and_eq_true] at hwf
      intro m c hmem
      exact WFbL_mem hwf.2 hmem

theorem WFb_nonempty {s : GState} (hwf : WFb s = true)
    (hterm : isTerminal s = false) : moveGen s ≠ [] := by
  cases s with
  | node b ch =>
      rw [WFb, Bool.and_eq_true] at hwf
      intro hemp
      have : ch = [] := hemp
      rw [this] at hwf
      simp at hwf
      rw [isTerminal] at hterm
      simp [GState.board] at hterm
      rw [hterm] at hwf
      exact Bool.false_ne_true hwf.1

theorem maxGo_snd_ne_none : ∀ (L : List (Move × GState)) (d : Nat)
    (alpha beta : Score) (maxD : Nat) (best : Score) (bm : Option Move),
    bm ≠ none → (maxGo L d alpha beta maxD best bm).2 ≠ none := by
  intro L
  induction L with
  | nil =>
      intro d alpha beta maxD best bm h
      rw [maxGo]
      exact h
  | cons hd tl ih =>
      obtain ⟨m, c⟩ := hd
      intro d alpha beta maxD best bm h
      rw [maxGo]
      have hbm : (if (minimax c d alpha beta false maxD).1 > best then some m else bm) ≠
          none := by
        by_cases he : (minimax c d alpha beta false maxD).1 > best
        · simp [he]
        · simp [he]
          exact h
      by_cases hbr : max alpha (minimax c d alpha beta false maxD).1 ≥ beta
      · rw [if_pos hbr]
        exact hbm
      · rw [if_neg hbr]
        exact ih _ _ _ _ _ _ hbm

theorem minGo_snd_ne_none : ∀ (L : List (Move × GState)) (d : Nat)
    (alpha beta : Score) (maxD : Nat) (best : Score) (bm : Option Move),
    bm ≠ none → (minGo L d alpha beta maxD best bm).2 ≠ none := by
  intro L
  induction L with
  | nil =>
      intro d alpha beta maxD best bm h
      rw [minGo]
      exact h
  | cons hd tl ih =>
      obtain ⟨m, c⟩ := hd
      intro d alpha beta maxD best bm h
      rw [minGo]
      have hbm : (if (minimax c d alpha beta true maxD).1 < best then some m else bm) ≠
          none := by
        by_cases he : (minimax c d alpha beta true maxD).1 < best
        · simp [he]
        · simp [he]
          exact h
      by_cases hbr : alpha ≥ min beta (minimax c d alpha beta true maxD).1
      · rw [if_pos hbr]
        exact hbm
      · rw [if_neg hbr]
        exact ih _ _ _ _ _ _ hbm

theorem maxGo_fst_lt_top : ∀ (L : List (Move × GState)) (d : Nat) (beta : Score)
    (maxD : Nat),
    (∀ m c, (m, c) ∈ L → ∀ alpha' : Score,
      (minimax c d alpha' beta false maxD).1 < ⊤) →
    ∀ (alpha best : Score) (bm : Option Move), best < ⊤ →
      (maxGo L d alpha beta maxD best bm).1 < ⊤ := by
  intro L
  induction L with
  | nil =>
      intro d beta maxD _ alpha best bm hb
      rw [maxGo]
      exact hb
  | cons hd tl ih =>
      obtain ⟨m, c⟩ := hd
      intro d beta maxD hch alpha best bm hb
      rw [maxGo, ite_gt_eq_max]
      have he : (minimax c d alpha beta false maxD).1 < ⊤ :=
        hch m c (List.mem_cons_self _ _) alpha
      have hb' : max best (minimax c d alpha beta false maxD).1 < ⊤ := max_lt hb he
      by_cases hbr : max alpha (minimax c d alpha beta false maxD).1 ≥ beta
      · rw [if_pos hbr]
        exact hb'
      · rw [if_neg hbr]
        exact ih _ _ _ (fun m' c' h => hch m' c' (List.mem_cons_of_mem _ h)) _ _ _ hb'

theorem minGo_bot_lt_fst : ∀ (L : List (Move × GState)) (d : Nat) (alpha : Score)
    (maxD : Nat),
    (∀ m c, (m, c) ∈ L → ∀ beta' : Score,
      ⊥ < (minimax c d alpha beta' true maxD).1) →
    ∀ (beta best : Score) (bm : Option Move), ⊥ < best →
      ⊥ < (minGo L d alpha beta maxD best bm).1 := by
  intro L
  induction L with
  | nil =>
      intro d alpha maxD _ beta best bm hb
      rw [minGo]
      exact hb
  | cons hd tl ih =>
      obtain ⟨m, c⟩ := hd
      intro d alpha maxD hch beta best bm hb
      rw [minGo, ite_lt_eq_min]
      have he : ⊥ < (minimax c d alpha beta true maxD).1 :=
        hch m c (List.mem_cons_self _ _) beta
      have hb' : ⊥ < min best (minimax c d alpha beta true maxD).1 := lt_min hb he
      by_cases hbr : alpha ≥ min beta (minimax c d alpha beta true maxD).1
      · rw [if_pos hbr]
        exact hb'
      · rw [if_neg hbr]
        exact ih _ _ _ (fun m' c' h => hch m' c' (List.mem_cons_of_mem _ h)) _ _ _ hb'

theorem maxGo_bot_lt_fst_cons (m : Move) (c : GState) (tl : List (Move × GState))
    (d : Nat) (alpha beta : Score) (maxD : Nat) (best : Score) (bm : Option Move)
    (he : ⊥ < (minimax c d alpha beta false maxD).1) :
    ⊥ < (maxGo ((m, c) :: tl) d alpha beta maxD best bm).1 := by
  rw [maxGo, ite_gt_eq_max]
  have hb' : ⊥ < max best (minimax c d alpha beta false maxD).1 :=
    lt_of_lt_of_le he (le_max_right _ _)
  by_cases hbr : max alpha (minimax c d alpha beta false maxD).1 ≥ beta
  · rw [if_pos hbr]
    exact hb'
  · rw [if_neg hbr]
    exact lt_of_lt_of_le hb' (le_maxGo_fst _ _ _ _ _ _ _)

theorem minGo_fst_lt_top_cons (m : Move) (c : GState) (tl : List (Move × GState))
    (d : Nat) (alpha beta : Score) (maxD : Nat) (best : Score) (bm : Option Move)
    (he : (minimax c d alpha beta true maxD).1 < ⊤) :
    (minGo ((m, c) :: tl) d alpha beta maxD best bm).1 < ⊤ := by
  rw [minGo, ite_lt_eq_min]
  have hb' : min best (minimax c d alpha beta true maxD).1 < ⊤ :=
    lt_of_le_of_lt (min_le_right _ _) he
  by_cases hbr : alpha ≥ min beta (minimax c d alpha beta true maxD).1
  · rw [if_pos hbr]
    exact hb'
  · rw [if_neg hbr]
    exact lt_of_le_of_lt (minGo_fst_le _ _ _ _ _ _ _) hb'

/-- On a well-formed tree (no non-terminal node with an empty successor list)
the search always returns a finite score: the infinities serve only as
initializations and window sentinels. -/
theorem minimax_finite : ∀ (n : Nat) (s : GState), sizeOf s ≤ n → WFb s = true →
    ∀ (d : Nat) (alpha beta : Score) (mx : Bool) (maxD : Nat),
      ⊥ < (minimax s d alpha beta mx maxD).1 ∧
        (minimax s d alpha beta mx maxD).1 < ⊤ := by
  intro n
  induction n with
  | zero =>
      intro s hs
      cases s with
      | node b L => simp at hs
  | succ n ihn =>
      intro s hs hwf d alpha beta mx maxD
      by_cases hbase : isTerminal s = true ∨ d = maxD
      · rw [minimax, if_pos hbase]
        exact ⟨bot_lt_toScore _, toScore_lt_top _⟩
      · have hsize : ∀ m c, (m, c) ∈ moveGen s → sizeOf c ≤ n := by
          intro m c hmem
          have h1 := sizeOf_snd_lt_of_mem hmem
          have h2 := sizeOf_moveGen_lt s
          omega
        have hterm : isTerminal s = false := by
          cases hb : isTerminal s with
          | false => rfl
          | true => exact absurd (Or.inl hb) hbase
        have hne := WFb_nonempty hwf hterm
        cases mx with
        | true =>
            rw [minimax, if_neg hbase, if_pos rfl]
            constructor
            · cases hL : moveGen s with
              | nil => exact absurd hL hne
              | cons hd tl =>
                  obtain ⟨m, c⟩ := hd
                  have hc : WFb c = true :=
                    WFb_children hwf (hL ▸ List.mem_cons_self _ _)
                  exact maxGo_bot_lt_fst_cons m c tl (d + 1) alpha beta maxD ⊥ none
                    (ihn c (hsize m c (hL ▸ List.mem_cons_self _ _)) hc
                      (d + 1) alpha beta false maxD).1
            · exact maxGo_fst_lt_top (moveGen s) (d + 1) beta maxD
                (fun m c hmem alpha' =>
                  (ihn c (hsize m c hmem) (WFb_children hwf hmem)
                    (d + 1) alpha' beta false maxD).2)
                alpha ⊥ none score_bot_lt_top
        | false =>
            rw [minimax, if_neg hbase, if_neg Bool.false_ne_true]
            constructor
            · exact minGo_bot_lt_fst (moveGen s) (d + 1) alpha maxD
                (fun m c hmem beta' =>
                  (ihn c (hsize m c hmem) (WFb_children hwf hmem)
                    (d + 1) alpha beta' true maxD).1)
                beta ⊤ none score_bot_lt_top
            · cases hL : moveGen s with
              | nil => exact absurd hL hne
              | cons hd tl =>
                  obtain ⟨m, c⟩ := hd
                  have hc : WFb c = true :=
                    WFb_children hwf (hL ▸ List.mem_cons_self _ _)
                  exact minGo_fst_lt_top_cons m c tl (d + 1) alpha beta maxD ⊤ none
                    (ihn c (hsize m c (hL ▸ List.mem_cons_self _ _)) hc
                      (d + 1) alpha beta true maxD).2

/-- C10: on a well-formed tree, a non-terminal root searched below `maxDepth`
with at least one successor always yields a move: the first successor's score
is finite, so it strictly beats the infinite initialization and is recorded as
best move before any pruning break can fire; the `none` fallback is reachable
only through an empty successor list. -/
theorem c10_returns_move (s : GState) (d : Nat) (alpha beta : Score) (mx : Bool)
    (maxD : Nat) (hwf : WFb s = true) (hterm : isTerminal s = false)
    (hd : d < maxD) (hne : moveGen s ≠ []) :
    (minimax s d alpha beta mx maxD).2 ≠ none := by
  have hbase : ¬ (isTerminal s = true ∨ d = maxD) := by
    simp [hterm]
    omega
  cases mx with
  | true =>
      rw [minimax, if_neg hbase, if_pos rfl]
      cases hL : moveGen s with
      | nil => exact absurd hL hne
      | cons hd' tl =>
          obtain ⟨m, c⟩ := hd'
          have hc : WFb c = true := WFb_children hwf (hL ▸ List.mem_cons_self _ _)
          have he : ⊥ < (minimax c (d + 1) alpha beta false maxD).1 :=
            (minimax_finite (sizeOf c) c le_rfl hc (d + 1) alpha beta false maxD).1
          rw [maxGo]
          by_cases hbr : max alpha (minimax c (d + 1) alpha beta false maxD).1 ≥ beta
          · rw [if_pos hbr]
            simp [he]
          · rw [if_neg hbr]
            exact maxGo_snd_ne_none _ _ _ _ _ _ _ (by simp [he])
  | false =>
      rw [minimax, if_neg hbase, if_neg Bool.false_ne_true]
      cases hL : moveGen s with
      | nil => exact absurd hL hne
      | cons hd' tl =>
          obtain ⟨m, c⟩ := hd'
          have hc : WFb c = true := WFb_children hwf (hL ▸ List.mem_cons_self _ _)
          have he : (minimax c (d + 1) alpha beta true maxD).1 < ⊤ :=
            (minimax_finite (sizeOf c) c le_rfl hc (d + 1) alpha beta true maxD).2
          rw [minGo]
          by_cases hbr : alpha ≥ min beta (minimax c (d + 1) alpha beta true maxD).1
          · rw [if_pos hbr]
            simp [he]
          · rw [if_neg hbr]
            exact minGo_snd_ne_none _ _ _ _ _ _ _ (by simp [he])

/-- A well-formed one-move tree: a quiet non-terminal root whose single
successor is a stalemate leaf. -/
def sOneMove : GState := GState.node bQuiet [("e2e4", GState.node bStale [])]

/-- C10 witness: the one-move tree yields a move at any positive depth
budget. -/
theorem c10_witness :
    WFb sOneMove = true ∧ isTerminal sOneMove = false ∧ (0 : Nat) < 3 ∧
      moveGen sOneMove ≠ [] ∧ (minimax sOneMove 0 ⊥ ⊤ false 3).2 ≠ none := by
  have hwf : WFb sOneMove = true := by
    rw [sOneMove, WFb, WFbL, WFb, WFbL]
    simp [bStale, bQuiet]
  refine ⟨hwf, rfl, by omega, by simp [sOneMove, moveGen, GState.children], ?_⟩
  exact c10_returns_move sOneMove 0 ⊥ ⊤ false 3 hwf rfl (by omega)
    (by simp [sOneMove, moveGen, GState.children])

/-- C8 witness: on `sTwoMoves` the spec-side first-argmax is the second move
`d2d4` with score 1, and `minimax` at depth one returns exactly that. -/
theorem c8_witness :
    isTerminal sTwoMoves = false ∧
      specFirstMax (moveGen sTwoMoves) = some ("d2d4", 1) ∧
      minimax sTwoMoves 0 ⊥ ⊤ true 1 = (toScore 1, some "d2d4") := by
  have h1 : isTerminal sTwoMoves = false := rfl
  have h2 : specFirstMax (moveGen sTwoMoves) = some ("d2d4", 1) := by
    have hq : evaluate bQuiet = 0 := by
      norm_num [evaluate, bQuiet, Board.piece_at, centerSquares]
    have hn : evaluate cbNoDraw = 1 := by
      norm_num [evaluate, cbNoDraw, bQuiet, Board.piece_at, centerSquares]
    simp [specFirstMax, sTwoMoves, moveGen, GState.children, GState.board, hq, hn]
  exact ⟨h1, h2, c8_depth_one_first_argmax sTwoMoves "d2d4" 1 h1 h2⟩

mutual

/-- `minimax` instrumented with an iteration count: identical recursion, and
additionally the total number of successor-loop iterations performed in the
whole call (each child examined at any node counts one), so that "stops
iterating successors earlier" is observable in the result. -/
def minimaxN (s : GState) (depth : Nat) (alpha beta : Score) (mx : Bool)
    (maxD : Nat) : (Score × Option Move) × Nat :=
  if isTerminal s = true ∨ depth = maxD then
    ((toScore (evaluate s.board), none), 0)
  else if mx then
    maxGoN (moveGen s) (depth + 1) alpha beta maxD ⊥ none 0
  else
    minGoN (moveGen s) (depth + 1) alpha beta maxD ⊤ none 0
termination_by sizeOf s
decreasing_by
  · exact sizeOf_moveGen_lt s
  · exact sizeOf_moveGen_lt s

/-- Instrumented MAX-node loop with the source's bound update
`alpha = max(alpha, child score)`. -/
def maxGoN (L : List (Move × GState)) (d : Nat) (alpha beta : Score) (maxD : Nat)
    (best : Score) (bm : Option Move) (k : Nat) : (Score × Option Move) × Nat :=
  match L with
  | [] => ((best, bm), k)
  | (m, c) :: rest =>
    let r := minimaxN c d alpha beta false maxD
    let e := r.1.1
    let best' := if e > best then e else best
    let bm' := if e > best then some m else bm
    let alpha' := max alpha e
    if alpha' ≥ beta then ((best', bm'), k + 1 + r.2)
    else maxGoN rest d alpha' beta maxD best' bm' (k + 1 + r.2)
termination_by sizeOf L
decreasing_by all_goals (simp <;> omega)

/-- Instrumented MIN-node loop with the source's bound update
`beta = min(beta, child score)`. -/
def minGoN (L : List (Move × GState)) (d : Nat) (alpha beta : Score) (maxD : Nat)
    (best : Score) (bm : Option Move) (k : Nat) : (Score × Option Move) × Nat :=
  match L with
  | [] => ((best, bm), k)
  | (m, c) :: rest =>
    let r := minimaxN c d alpha beta true maxD
    let e := r.1.1
    let best' := if e < best then e else best
    let bm' := if e < best then some m else bm
    let beta' := min beta e
    if alpha ≥ beta' then ((best', bm'), k + 1 + r.2)
    else minGoN rest d alpha beta' maxD best' bm' (k + 1 + r.2)
termination_by sizeOf L
decreasing_by all_goals (simp <;> omega)

end

mutual

/-- The textbook variant: identical to `minimaxN` except that the bound is
updated from the running best (`alpha = max(alpha, best-so-far)` after the
best-so-far update, and symmetrically for `beta`), also instrumented with the
iteration count. -/
def minimaxTBN (s : GState) (depth : Nat) (alpha beta : Score) (mx : Bool)
    (maxD : Nat) : (Score × Option Move) × Nat :=
  if isTerminal s = true ∨ depth = maxD then
    ((toScore (evaluate s.board), none), 0)
  else if mx then
    maxGoTBN (moveGen s) (depth + 1) alpha beta maxD ⊥ none 0
  else
    minGoTBN (moveGen s) (depth + 1) alpha beta maxD ⊤ none 0
termination_by sizeOf s
decreasing_by
  · exact sizeOf_moveGen_lt s
  · exact sizeOf_moveGen_lt s

/-- Textbook MAX-node loop: `alpha` advances to the running best. -/
def maxGoTBN (L : List (Move × GState)) (d : Nat) (alpha beta : Score)
    (maxD : Nat) (best : Score) (bm : Option Move) (k : Nat) :
    (Score × Option Move) × Nat :=
  match L with
  | [] => ((best, bm), k)
  | (m, c) :: rest =>
    let r := minimaxTBN c d alpha beta false maxD
    let e := r.1.1
    let best' := if e > best then e else best
    let bm' := if e > best then some m else bm
    let alpha' := max alpha best'
    if alpha' ≥ beta then ((best', bm'), k + 1 + r.2)
    else maxGoTBN rest d alpha' beta maxD best' bm' (k + 1 + r.2)
termination_by sizeOf L
decreasing_by all_goals (simp <;> omega)

/-- Textbook MIN-node loop: `beta` advances to the running best. -/
def minGoTBN (L : List (Move × GState)) (d : Nat) (alpha beta : Score)
    (maxD : Nat) (best : Score) (bm : Option Move) (k : Nat) :
    (Score × Option Move) × Nat :=
  match L with
  | [] => ((best, bm), k)
  | (m, c) :: rest =>
    let r := minimaxTBN c d alpha beta true maxD
    let e := r.1.1
    let best' := if e < best then e else best
    let bm' := if e < best then some m else bm
    let beta' := min beta best'
    if alpha ≥ beta' then ((best', bm'), k + 1 + r.2)
    else minGoTBN rest d alpha beta' maxD best' bm' (k + 1 + r.2)
termination_by sizeOf L
decreasing_by all_goals (simp <;> omega)

end

theorem maxGoN_fst (d : Nat) (beta : Score) (maxD : Nat) :
    ∀ (L : List (Move × GState)),
    (∀ m c, (m, c) ∈ L → ∀ (alpha' : Score),
      (minimaxN c d alpha' beta false maxD).1 = minimax c d alpha' beta false maxD) →
    ∀ (alpha best : Score) (bm : Option Move) (k : Nat),
      (maxGoN L d alpha beta maxD best bm k).1 = maxGo L d alpha beta maxD best bm := by
  intro L
  induction L with
  | nil =>
      intro _ alpha best bm k
      rw [maxGoN, maxGo]
  | cons hd tl ih =>
      obtain ⟨m, c⟩ := hd
      intro hch alpha best bm k
      rw [maxGoN, maxGo]
      rw [hch m c (List.mem_cons_self _ _) alpha]
      by_cases hbr : max alpha (minimax c d alpha beta false maxD).1 ≥ beta
      · rw [if_pos hbr, if_pos hbr]
      · rw [if_neg hbr, if_neg hbr]
        exact ih (fun m' c' h => hch m' c' (List.mem_cons_of_mem _ h)) _ _ _ _

theorem minGoN_fst (d : Nat) (alpha : Score) (maxD : Nat) :
    ∀ (L : List (Move × GState)),
    (∀ m c, (m, c) ∈ L → ∀ (beta' : Score),
      (minimaxN c d alpha beta' true maxD).1 = minimax c d alpha beta' true maxD) →
    ∀ (beta best : Score) (bm : Option Move) (k : Nat),
      (minGoN L d alpha beta maxD best bm k).1 = minGo L d alpha beta maxD best bm := by
  intro L
  induction L with
  | nil =>
      intro _ beta best bm k
      rw [minGoN, minGo]
  | cons hd tl ih =>
      obtain ⟨m, c⟩ := hd
      intro hch beta best bm k
      rw [minGoN, minGo]
      rw [hch m c (List.mem_cons_self _ _) beta]
      by_cases hbr : alpha ≥ min beta (minimax c d alpha beta true maxD).1
      · rw [if_pos hbr, if_pos hbr]
      · rw [if_neg hbr, if_neg hbr]
        exact ih (fun m' c' h => hch m' c' (List.mem_cons_of_mem _ h)) _ _ _ _

/-- The instrumented search projects onto the source translation: forgetting
the iteration count recovers `minimax` exactly. -/
theorem minimaxN_fst : ∀ (n : Nat) (s : GState), sizeOf s ≤ n →
    ∀ (d : Nat) (alpha beta : Score) (mx : Bool) (maxD : Nat),
      (minimaxN s d alpha beta mx maxD).1 = minimax s d alpha beta mx maxD := by
  intro n
  induction n with
  | zero =>
      intro s hs
      cases s with
      | node b L => simp at hs
  | succ n ihn =>
      intro s hs d alpha beta mx maxD
      have hsize : ∀ m c, (m, c) ∈ moveGen s → sizeOf c ≤ n := by
        intro m c hmem
        have h1 := sizeOf_snd_lt_of_mem hmem
        have h2 := sizeOf_moveGen_lt s
        omega
      by_cases hbase : isTerminal s = true ∨ d = maxD
      · rw [minimaxN, minimax, if_pos hbase, if_pos hbase]
      · cases mx with
        | true =>
            rw [minimaxN, minimax, if_neg hbase, if_neg hbase, if_pos rfl, if_pos rfl]
            exact maxGoN_fst (d + 1) beta maxD (moveGen s)
              (fun m c hmem alpha' => ihn c (hsize m c hmem) (d + 1) alpha' beta false maxD)
              alpha ⊥ none 0
        | false =>
            rw [minimaxN, minimax, if_neg hbase, if_neg hbase,
              if_neg Bool.false_ne_true, if_neg Bool.false_ne_true]
            exact minGoN_fst (d + 1) alpha maxD (moveGen s)
              (fun m c hmem beta' => ihn c (hsize m c hmem) (d + 1) alpha beta' true maxD)
              beta ⊤ none 0

theorem maxGoN_eq_TBN (d : Nat) (beta : Score) (maxD : Nat) :
    ∀ (L : List (Move × GState)),
    (∀ m c, (m, c) ∈ L → ∀ (alpha' beta' : Score) (mx : Bool),
      minimaxN c d alpha' beta' mx maxD = minimaxTBN c d alpha' beta' mx maxD) →
    ∀ (alpha best : Score) (bm : Option Move) (k : Nat), best ≤ alpha →
      maxGoN L d alpha beta maxD best bm k = maxGoTBN L d alpha beta maxD best bm k := by
  intro L
  induction L with
  | nil =>
      intro _ alpha best bm k _
      rw [maxGoN, maxGoTBN]
  | cons hd tl ih =>
      obtain ⟨m, c⟩ := hd
      intro hch alpha best bm k hba
      rw [maxGoN, maxGoTBN]
      rw [← hch m c (List.mem_cons_self _ _) alpha beta false]
      rw [ite_gt_eq_max]
      have halpha : max alpha (max best (minimaxN c d alpha beta false maxD).1.1) =
          max alpha (minimaxN c d alpha beta false maxD).1.1 := by
        rw [← max_assoc, max_eq_left hba]
      rw [halpha]
      by_cases hbr : max alpha (minimaxN c d alpha beta false maxD).1.1 ≥ beta
      · rw [if_pos hbr, if_pos hbr]
      · rw [if_neg hbr, if_neg hbr]
        exact ih (fun m' c' h => hch m' c' (List.mem_cons_of_mem _ h)) _ _ _ _
          (max_le (le_trans hba (le_max_left _ _)) (le_max_right _ _))

theorem minGoN_eq_TBN (d : Nat) (alpha : Score) (maxD : Nat) :
    ∀ (L : List (Move × GState)),
    (∀ m c, (m, c) ∈ L → ∀ (alpha' beta' : Score) (mx : Bool),
      minimaxN c d alpha' beta' mx maxD = minimaxTBN c d alpha' beta' mx maxD) →
    ∀ (beta best : Score) (bm : Option Move) (k : Nat), beta ≤ best →
      minGoN L d alpha beta maxD best bm k = minGoTBN L d alpha beta maxD best bm k := by
  intro L
  induction L with
  | nil =>
      intro _ beta best bm k _
      rw [minGoN, minGoTBN]
  | cons hd tl ih =>
      obtain ⟨m, c⟩ := hd
      intro hch beta best bm k hbb
      rw [minGoN, minGoTBN]
      rw [← hch m c (List.mem_cons_self _ _) alpha beta true]
      rw [ite_lt_eq_min]
      have hbeta : min beta (min best (minimaxN c d alpha beta true maxD).1.1) =
          min beta (minimaxN c d alpha beta true maxD).1.1 := by
        rw [← min_assoc, min_eq_left hbb]
      rw [hbeta]
      by_cases hbr : alpha ≥ min beta (minimaxN c d alpha beta true maxD).1.1
      · rw [if_pos hbr, if_pos hbr]
      · rw [if_neg hbr, if_neg hbr]
        exact ih (fun m' c' h => hch m' c' (List.mem_cons_of_mem _ h)) _ _ _ _
          (le_min (le_trans (min_le_left _ _) hbb) (min_le_right _ _))

/-- Updating the bound from each child's raw score and updating it from the
running best are extensionally the same search: along the loop the bound is
`max` (resp. `min`) of its initial value and every child score seen so far in
both variants, so scores, moves and iteration counts all agree. -/
theorem minimaxN_eq_TBN : ∀ (n : Nat) (s : GState), sizeOf s ≤ n →
    ∀ (d : Nat) (alpha beta : Score) (mx : Bool) (maxD : Nat),
      minimaxN s d alpha beta mx maxD = minimaxTBN s d alpha beta mx maxD := by
  intro n
  induction n with
  | zero =>
      intro s hs
      cases s with
      | node b L => simp at hs
  | succ n ihn =>
      intro s hs d alpha beta mx maxD
      have hsize : ∀ m c, (m, c) ∈ moveGen s → sizeOf c ≤ n := by
        intro m c hmem
        have h1 := sizeOf_snd_lt_of_mem hmem
        have h2 := sizeOf_moveGen_lt s
        omega
      by_cases hbase : isTerminal s = true ∨ d = maxD
      · rw [minimaxN, minimaxTBN, if_pos hbase, if_pos hbase]
      · cases mx with
        | true =>
            rw [minimaxN, minimaxTBN, if_neg hbase, if_neg hbase, if_pos rfl, if_pos rfl]
            exact maxGoN_eq_TBN (d + 1) beta maxD (moveGen s)
              (fun m c hmem alpha' beta' mx' =>
                ihn c (hsize m c hmem) (d + 1) alpha' beta' mx' maxD)
              alpha ⊥ none 0 bot_le
        | false =>
            rw [minimaxN, minimaxTBN, if_neg hbase, if_neg hbase,
              if_neg Bool.false_ne_true, if_neg Bool.false_ne_true]
            exact minGoN_eq_TBN (d + 1) alpha maxD (moveGen s)
              (fun m c hmem alpha' beta' mx' =>
                ihn c (hsize m c hmem) (d + 1) alpha' beta' mx' maxD)
              beta ⊤ none 0 le_top

/-- C3 counterexample to the claimed discrepancy: there is no state, depth,
bound pair, side or depth budget on which the child-score bound update behaves
differently from the textbook running-best update — neither in the returned
score, nor in the returned move, nor in the number of successors iterated. -/
theorem c3_counterexample :
    ¬ ∃ (s : GState) (d : Nat) (alpha beta : Score) (mx : Bool) (maxD : Nat),
      minimaxN s d alpha beta mx maxD ≠ minimaxTBN s d alpha beta mx maxD := by
  push_neg
  intro s d alpha beta mx maxD
  exact minimaxN_eq_TBN (sizeOf s) s le_rfl d alpha beta mx maxD

/-- C3 amended: the search does update `alpha` (resp. `beta`) from each
child's raw returned score — but this rule coincides extensionally with the
textbook running-best update: on every state, depth, bounds, side and depth
budget the two variants return the same score and move and iterate the same
number of successors, and the instrumented function projects onto the source's
`minimax`. -/
theorem c3_amended_child_update_equals_textbook (s : GState) (d : Nat)
    (alpha beta : Score) (mx : Bool) (maxD : Nat) :
    minimaxN s d alpha beta mx maxD = minimaxTBN s d alpha beta mx maxD ∧
      (minimaxN s d alpha beta mx maxD).1 = minimax s d alpha beta mx maxD :=
  ⟨minimaxN_eq_TBN (sizeOf s) s le_rfl d alpha beta mx maxD,
   minimaxN_fst (sizeOf s) s le_rfl d alpha beta mx maxD⟩

end Assignment3
